import Mathlib

/-!
Verification of the address-filter library (filter.go) of the nett package.

The Go code manipulates an interface value Addrs; a nil interface is the
"absent" collection.  We embed a concrete Addrs value as a pair of a
concrete family tag (the dynamic type of the interface value: tcpAddrs,
udpAddrs, ipAddrs or unixAddrs) and the list of its address records, and an
Addrs interface value as an Option of that.  Go ints are embedded as Int
(with Int.tdiv for Go's truncated integer division); loop counters over
indices are Nat.  Each Go for-loop becomes a fuel-indexed recursive
function whose fuel is the number of remaining iterations.
-/

set_option maxHeartbeats 1000000

namespace Nett

/-- The four concrete families implementing the Addrs interface in
filter.go: tcpAddrs, udpAddrs, ipAddrs, unixAddrs. -/
inductive Family
  | tcp
  | udp
  | ip
  | unix
deriving DecidableEq

/-- One address record: its string form and its raw IP bytes
(net.TCPAddr/UDPAddr/IPAddr carry an IP; for unixAddrs the IP accessor
ignores the record and returns nil). -/
structure Addr where
  str : String
  ip : List Nat
deriving DecidableEq, Inhabited

/-- A non-nil Addrs interface value: the dynamic family type plus the
underlying slice of records. -/
structure AddrsVal where
  fam : Family
  elems : List Addr
deriving DecidableEq

/-- An Addrs interface value; none is the nil interface ("absent"). -/
abbrev Addrs := Option AddrsVal

/-- AddrsFilter selects addresses from addrs. -/
abbrev AddrsFilter := Addrs → Addrs

/-- The IP of a record as seen through the interface: tcp/udp/ip return the
record's IP field, unixAddrs.IP always returns nil (embedded as []). -/
def elemIP : Family → Addr → List Nat
  | .unix, _ => []
  | _, a => a.ip

/-- Len is the number of addresses in the collection. -/
def AddrsVal.Len (v : AddrsVal) : Nat := v.elems.length

/-- Addr is the string form of the address at index i. -/
def AddrsVal.Addr (v : AddrsVal) (i : Nat) : String := (v.elems.getD i default).str

/-- IP is the IP of the address at index i. -/
def AddrsVal.IP (v : AddrsVal) (i : Nat) : List Nat := elemIP v.fam (v.elems.getD i default)

/-- Append appends the address at index i of self to addrs.  The Go body is
a checked type assertion of addrs to self's concrete slice type (yielding
the nil slice when addrs is nil or of a different dynamic type) followed by
a slice append, which always yields a non-nil slice of self's type. -/
def AddrsVal.Append (self : AddrsVal) (addrs : Addrs) (i : Nat) : Addrs :=
  let t : List Nett.Addr :=
    match addrs with
    | none => []
    | some tv => if tv.fam = self.fam then tv.elems else []
  some ⟨self.fam, t ++ [self.elems.getD i default]⟩

/-- The accumulator state of the filters' loops, as a list: a Go nil
interface for the empty list (the var a Addrs zero value), and a non-nil
collection for a non-empty one (Append never yields an empty slice). -/
def mkAcc (fam : Family) : List Addr → Addrs
  | [] => none
  | l => some ⟨fam, l⟩

/-- Length of a possibly-absent collection; absent counts as 0. -/
def alen : Addrs → Nat
  | none => 0
  | some v => v.Len

/-- Element list of a possibly-absent collection; absent has no elements. -/
def aelems : Addrs → List Addr
  | none => []
  | some v => v.elems

/-- Whether a record's IP, as seen through family fam, has length tlen. -/
def hasIPLen (fam : Family) (tlen : Nat) (a : Addr) : Bool :=
  decide ((elemIP fam a).length = tlen)

/-- IPv4 discriminator: the record's IP has length 4 (net.IPv4len). -/
def isV4 (fam : Family) : Addr → Bool := hasIPLen fam 4

/-- IPv6 discriminator: the record's IP has length 16 (net.IPv6len). -/
def isV6 (fam : Family) : Addr → Bool := hasIPLen fam 16

/-- The loop of DefaultAddrsFilter: scan indices i, i+1, ... (fuel n
remaining iterations); return the first IPv4 address as a singleton,
remembering the index of the first IPv6 address seen (ipv6 = none encodes
the Go sentinel -1). -/
def defaultLoop (v : AddrsVal) : Nat → Nat → Option Nat → Addrs
  | 0, _, ipv6 =>
    match ipv6 with
    | none => none
    | some j => v.Append none j
  | n+1, i, ipv6 =>
    if (v.IP i).length = 4 then v.Append none i
    else if ipv6 = none ∧ (v.IP i).length = 16 then defaultLoop v n (i+1) (some i)
    else defaultLoop v n (i+1) ipv6

/-- DefaultAddrsFilter selects the first address IPv4 address in addrs.
If only IPv6 addresses exist in addrs, then it selects the first IPv6
address. -/
def DefaultAddrsFilter (addrs : Addrs) : Addrs :=
  match addrs with
  | none => none
  | some v => if v.Len ≤ 1 then addrs else defaultLoop v v.Len 0 none

/-- NoAddrsFilter selects all addresses in addrs. -/
def NoAddrsFilter (addrs : Addrs) : Addrs := addrs

/-- FirstAddrsFilter selects the first address in addrs. -/
def FirstAddrsFilter (addrs : Addrs) : Addrs :=
  match addrs with
  | none => none
  | some v => if v.Len ≤ 1 then addrs else v.Append none 0

/-- The loop of FirstEachAddrsFilter: flags record whether an IPv4 resp.
IPv6 address has already been appended; the loop breaks once both are
set. -/
def firstEachLoop (v : AddrsVal) : Nat → Nat → Bool → Bool → Addrs → Addrs
  | 0, _, _, _, a => a
  | n+1, i, ipv4, ipv6, a =>
    if ¬ipv4 ∧ (v.IP i).length = 4 then
      if ipv6 then v.Append a i
      else firstEachLoop v n (i+1) true ipv6 (v.Append a i)
    else if ¬ipv6 ∧ (v.IP i).length = 16 then
      if ipv4 then v.Append a i
      else firstEachLoop v n (i+1) ipv4 true (v.Append a i)
    else
      if ipv4 ∧ ipv6 then a
      else firstEachLoop v n (i+1) ipv4 ipv6 a

/-- FirstEachAddrsFilter selects the first IPv4 address and IPv6 address in
addrs. -/
def FirstEachAddrsFilter (addrs : Addrs) : Addrs :=
  match addrs with
  | none => none
  | some v => if v.Len ≤ 1 then addrs else firstEachLoop v v.Len 0 false false none

/-- The shared loop shape of FirstIPv4AddrsFilter (tlen = 4) and
FirstIPv6AddrsFilter (tlen = 16): return the first address whose IP length
is tlen as a singleton, or nil if none. -/
def firstLoop (v : AddrsVal) (tlen : Nat) : Nat → Nat → Addrs
  | 0, _ => none
  | n+1, i =>
    if (v.IP i).length = tlen then v.Append none i
    else firstLoop v tlen n (i+1)

/-- FirstIPv4AddrsFilter selects the first IPv4 address in addrs. -/
def FirstIPv4AddrsFilter (addrs : Addrs) : Addrs :=
  match addrs with
  | none => none
  | some v => firstLoop v 4 v.Len 0

/-- FirstIPv6AddrsFilter selects the first IPv6 address in addrs. -/
def FirstIPv6AddrsFilter (addrs : Addrs) : Addrs :=
  match addrs with
  | none => none
  | some v => firstLoop v 16 v.Len 0

/-- The shared loop shape of IPv4AddrsFilter (tlen = 4) and
IPv6AddrsFilter (tlen = 16): append every address whose IP length is
tlen. -/
def allLoop (v : AddrsVal) (tlen : Nat) : Nat → Nat → Addrs → Addrs
  | 0, _, a => a
  | n+1, i, a =>
    if (v.IP i).length = tlen then allLoop v tlen n (i+1) (v.Append a i)
    else allLoop v tlen n (i+1) a

/-- IPv4AddrsFilter selects all IPv4 addresses in addrs. -/
def IPv4AddrsFilter (addrs : Addrs) : Addrs :=
  match addrs with
  | none => none
  | some v => allLoop v 4 v.Len 0 none

/-- IPv6AddrsFilter selects all IPv6 addresses in addrs. -/
def IPv6AddrsFilter (addrs : Addrs) : Addrs :=
  match addrs with
  | none => none
  | some v => allLoop v 16 v.Len 0 none

/-- The counting loop of MaxAddrsFilter: count IPv4 and IPv6 addresses
(Go int counters, embedded as Int). -/
def countLoop (v : AddrsVal) : Nat → Nat → Int × Int → Int × Int
  | 0, _, c => c
  | n+1, i, c =>
    if (v.IP i).length = 4 then countLoop v n (i+1) (c.1 + 1, c.2)
    else if (v.IP i).length = 16 then countLoop v n (i+1) (c.1, c.2 + 1)
    else countLoop v n (i+1) c

/-- The selection loop of MaxAddrsFilter: a single forward scan appending
an address while its family's quota is still positive. -/
def maxSelLoop (v : AddrsVal) : Nat → Nat → Int → Int → Addrs → Addrs
  | 0, _, _, _, a => a
  | n+1, i, ipv4, ipv6, a =>
    if 0 < ipv4 ∧ (v.IP i).length = 4 then maxSelLoop v n (i+1) (ipv4 - 1) ipv6 (v.Append a i)
    else if 0 < ipv6 ∧ (v.IP i).length = 16 then maxSelLoop v n (i+1) ipv4 (ipv6 - 1) (v.Append a i)
    else maxSelLoop v n (i+1) ipv4 ipv6 a

/-- MaxAddrsFilter returns an AddrsFilter that selects up to max addresses,
splitting the result evenly between available IPv4 and IPv6 addresses, the
rounding benefit going to IPv4, addresses toward the front preferred.  Go's
truncated integer division of ints is Int.tdiv. -/
def MaxAddrsFilter (max : Int) : AddrsFilter := fun addrs =>
  match addrs with
  | none => none
  | some v =>
    if (v.Len : Int) ≤ max then addrs
    else
      let c := countLoop v v.Len 0 (0, 0)
      let halfLen := max.tdiv 2
      let q : Int × Int :=
        if c.2 ≤ halfLen then (max - c.2, c.2)
        else if c.1 ≤ halfLen then (c.1, max - c.1)
        else (max - halfLen, halfLen)
      maxSelLoop v v.Len 0 q.1 q.2 none

/-- The loop of ReverseAddrsFilter: append indices n-1, n-2, ..., 0. -/
def reverseLoop (v : AddrsVal) : Nat → Addrs → Addrs
  | 0, a => a
  | n+1, a => reverseLoop v n (v.Append a n)

/-- ReverseAddrsFilter selects all addresses in addrs in reverse order. -/
def ReverseAddrsFilter (addrs : Addrs) : Addrs :=
  match addrs with
  | none => none
  | some v => if v.Len ≤ 1 then addrs else reverseLoop v v.Len none

/-- The loop of ShuffleAddrsFilter: append the indices in the order given
by the permutation produced by rand.Perm. -/
def shuffleLoop (v : AddrsVal) : List Nat → Addrs → Addrs
  | [], a => a
  | i :: is, a => shuffleLoop v is (v.Append a i)

/-- ShuffleAddrsFilter selects all addresses in addrs in random order.
The randomness source rand.Perm is external; the filter is parameterized
by it: perm n stands for the permutation of 0..n-1 that rand.Perm(n)
returned. -/
def ShuffleAddrsFilter (perm : Nat → List Nat) (addrs : Addrs) : Addrs :=
  match addrs with
  | none => none
  | some v => if v.Len ≤ 1 then addrs else shuffleLoop v (perm v.Len) none

/-- ComposeAddrsFilters returns an AddrsFilter that applies filters in
sequence. -/
def ComposeAddrsFilters (filters : List AddrsFilter) : AddrsFilter :=
  fun addrs => filters.foldl (fun a filter => filter a) addrs

/-- Reference selection used to specify the MaxAddrsFilter scan: consume
the list left to right, keeping an element while its family's quota is
still positive.  p4 and p16 are the two family discriminators. -/
def takeQuota (p4 p16 : Addr → Bool) : List Addr → Int → Int → List Addr
  | [], _, _ => []
  | x :: xs, q4, q6 =>
    if 0 < q4 ∧ p4 x then x :: takeQuota p4 p16 xs (q4 - 1) q6
    else if 0 < q6 ∧ p16 x then x :: takeQuota p4 p16 xs q4 (q6 - 1)
    else takeQuota p4 p16 xs q4 q6

/-- Reference selection used to specify the FirstEachAddrsFilter scan:
keep the first p4 element and the first p16 element; the flags say the
corresponding first has already been taken. -/
def firstEachSel (p4 p16 : Addr → Bool) : List Addr → Bool → Bool → List Addr
  | [], _, _ => []
  | x :: xs, b4, b6 =>
    if ¬b4 ∧ p4 x then x :: firstEachSel p4 p16 xs true b6
    else if ¬b6 ∧ p16 x then x :: firstEachSel p4 p16 xs b4 true
    else firstEachSel p4 p16 xs b4 b6

/-- Reference selection used to specify the DefaultAddrsFilter scan: the
first p4 element as a singleton, else the remembered element s, else the
first p16 element as a singleton, else absent. -/
def defaultSel (p4 p16 : Addr → Bool) (fam : Family) (xs : List Addr) (s : Option Addr) : Addrs :=
  match xs.find? p4 with
  | some e => some ⟨fam, [e]⟩
  | none =>
    match s with
    | some e => some ⟨fam, [e]⟩
    | none => (xs.find? p16).map fun e => AddrsVal.mk fam [e]

/-- A filter maps the absent collection to the absent collection. -/
def AbsentPreserving (f : AddrsFilter) : Prop := f none = none

/-- A filter never lengthens a collection (absent counting as length 0). -/
def LenBounded (f : AddrsFilter) : Prop := ∀ addrs : Addrs, alen (f addrs) ≤ alen addrs

/-- Concrete IPv4 sample record (IP length 4). -/
def wA : Addr := ⟨"1.2.3.4:80", [1, 2, 3, 4]⟩

/-- Second concrete IPv4 sample record. -/
def wC : Addr := ⟨"5.6.7.8:80", [5, 6, 7, 8]⟩

/-- Concrete IPv6 sample record (IP length 16). -/
def wB : Addr := ⟨"[2001:db8::1]:80", [32, 1, 13, 184, 0, 0, 0, 0, 0, 0, 0, 0, 0, 0, 0, 1]⟩

/-- Second concrete IPv6 sample record. -/
def wD : Addr := ⟨"[2001:db8::2]:80", [32, 1, 13, 184, 0, 0, 0, 0, 0, 0, 0, 0, 0, 0, 0, 2]⟩

lemma mkAcc_ne_nil (fam : Family) (l : List Addr) (h : l ≠ []) :
    mkAcc fam l = some ⟨fam, l⟩ := by
  cases l with
  | nil => exact absurd rfl h
  | cons x xs => rfl

lemma aelems_mkAcc (fam : Family) (l : List Addr) : aelems (mkAcc fam l) = l := by
  cases l <;> rfl

lemma alen_mkAcc (fam : Family) (l : List Addr) : alen (mkAcc fam l) = l.length := by
  cases l <;> rfl

lemma append_mkAcc (v : AddrsVal) (l : List Addr) (i : Nat) :
    v.Append (mkAcc v.fam l) i = mkAcc v.fam (l ++ [v.elems.getD i default]) := by
  cases l with
  | nil => rfl
  | cons x xs => simp [AddrsVal.Append, mkAcc]

lemma drop_decomp (l : List Addr) (i : Nat) (h : i < l.length) :
    l.drop i = l.getD i default :: l.drop (i + 1) := by
  rw [List.getD_eq_getElem l default h]
  exact List.drop_eq_getElem_cons h

lemma hasIPLen_at (v : AddrsVal) (tlen i : Nat) :
    hasIPLen v.fam tlen (v.elems.getD i default) = true ↔ (v.IP i).length = tlen := by
  simp [hasIPLen, AddrsVal.IP]

lemma allLoop_eq (v : AddrsVal) (tlen : Nat) :
    ∀ (n i : Nat) (l : List Addr), i + n = v.Len →
      allLoop v tlen n i (mkAcc v.fam l) =
        mkAcc v.fam (l ++ (v.elems.drop i).filter (hasIPLen v.fam tlen)) := by
  intro n
  induction n with
  | zero =>
    intro i l h
    have hi : i = v.elems.length := by simpa [AddrsVal.Len] using h
    subst hi
    simp [allLoop, List.drop_length]
  | succ n ih =>
    intro i l h
    have hi : i < v.elems.length := by
      have := h
      simp [AddrsVal.Len] at this
      omega
    have hd := drop_decomp v.elems i hi
    have h' : (i + 1) + n = v.Len := by omega
    by_cases hp : (v.IP i).length = tlen
    · have hp' : hasIPLen v.fam tlen (v.elems.getD i default) = true :=
        (hasIPLen_at v tlen i).mpr hp
      rw [allLoop, if_pos hp, append_mkAcc, ih (i + 1) _ h', hd,
        List.filter_cons_of_pos hp']
      simp
    · have hp' : ¬ hasIPLen v.fam tlen (v.elems.getD i default) = true := fun hc =>
        hp ((hasIPLen_at v tlen i).mp hc)
      rw [allLoop, if_neg hp, ih (i + 1) _ h', hd, List.filter_cons_of_neg hp']

lemma firstLoop_eq (v : AddrsVal) (tlen : Nat) :
    ∀ (n i : Nat), i + n = v.Len →
      firstLoop v tlen n i =
        ((v.elems.drop i).find? (hasIPLen v.fam tlen)).map fun e => AddrsVal.mk v.fam [e] := by
  intro n
  induction n with
  | zero =>
    intro i h
    have hi : i = v.elems.length := by simpa [AddrsVal.Len] using h
    subst hi
    simp [firstLoop, List.drop_length]
  | succ n ih =>
    intro i h
    have hi : i < v.elems.length := by
      have := h
      simp [AddrsVal.Len] at this
      omega
    have hd := drop_decomp v.elems i hi
    have h' : (i + 1) + n = v.Len := by omega
    by_cases hp : (v.IP i).length = tlen
    · have hp' : hasIPLen v.fam tlen (v.elems.getD i default) = true :=
        (hasIPLen_at v tlen i).mpr hp
      rw [firstLoop, if_pos hp, hd, List.find?_cons_of_pos _ hp']
      simp [AddrsVal.Append]
    · have hp' : ¬ hasIPLen v.fam tlen (v.elems.getD i default) = true := fun hc =>
        hp ((hasIPLen_at v tlen i).mp hc)
      rw [firstLoop, if_neg hp, ih (i + 1) h', hd, List.find?_cons_of_neg _ hp']

lemma countLoop_eq (v : AddrsVal) :
    ∀ (n i : Nat) (c : Int × Int), i + n = v.Len →
      countLoop v n i c =
        (c.1 + ((v.elems.drop i).filter (isV4 v.fam)).length,
         c.2 + ((v.elems.drop i).filter (isV6 v.fam)).length) := by
  intro n
  induction n with
  | zero =>
    intro i c h
    have hi : i = v.elems.length := by simpa [AddrsVal.Len] using h
    subst hi
    simp [countLoop, List.drop_length]
  | succ n ih =>
    intro i c h
    have hi : i < v.elems.length := by
      have := h
      simp [AddrsVal.Len] at this
      omega
    have hd := drop_decomp v.elems i hi
    have h' : (i + 1) + n = v.Len := by omega
    by_cases hp4 : (v.IP i).length = 4
    · have h4 : isV4 v.fam (v.elems.getD i default) = true :=
        (hasIPLen_at v 4 i).mpr hp4
      have h6 : ¬ isV6 v.fam (v.elems.getD i default) = true := by
        intro hc
        have := (hasIPLen_at v 16 i).mp hc
        omega
      rw [countLoop, if_pos hp4, ih (i + 1) _ h', hd,
        List.filter_cons_of_pos h4, List.filter_cons_of_neg h6]
      refine Prod.ext (by simp; ring) (by simp)
    · by_cases hp6 : (v.IP i).length = 16
      · have h4 : ¬ isV4 v.fam (v.elems.getD i default) = true := fun hc =>
          hp4 ((hasIPLen_at v 4 i).mp hc)
        have h6 : isV6 v.fam (v.elems.getD i default) = true :=
          (hasIPLen_at v 16 i).mpr hp6
        rw [countLoop, if_neg hp4, if_pos hp6, ih (i + 1) _ h', hd,
          List.filter_cons_of_neg h4, List.filter_cons_of_pos h6]
        refine Prod.ext (by simp) (by simp; ring)
      · have h4 : ¬ isV4 v.fam (v.elems.getD i default) = true := fun hc =>
          hp4 ((hasIPLen_at v 4 i).mp hc)
        have h6 : ¬ isV6 v.fam (v.elems.getD i default) = true := fun hc =>
          hp6 ((hasIPLen_at v 16 i).mp hc)
        rw [countLoop, if_neg hp4, if_neg hp6, ih (i + 1) _ h', hd,
          List.filter_cons_of_neg h4, List.filter_cons_of_neg h6]

lemma maxSelLoop_eq (v : AddrsVal) :
    ∀ (n i : Nat) (q4 q6 : Int) (l : List Addr), i + n = v.Len →
      maxSelLoop v n i q4 q6 (mkAcc v.fam l) =
        mkAcc v.fam (l ++ takeQuota (isV4 v.fam) (isV6 v.fam) (v.elems.drop i) q4 q6) := by
  intro n
  induction n with
  | zero =>
    intro i q4 q6 l h
    have hi : i = v.elems.length := by simpa [AddrsVal.Len] using h
    subst hi
    simp [maxSelLoop, List.drop_length, takeQuota]
  | succ n ih =>
    intro i q4 q6 l h
    have hi : i < v.elems.length := by
      have := h
      simp [AddrsVal.Len] at this
      omega
    have hd := drop_decomp v.elems i hi
    have h' : (i + 1) + n = v.Len := by omega
    by_cases hc1 : 0 < q4 ∧ (v.IP i).length = 4
    · have hb1 : 0 < q4 ∧ isV4 v.fam (v.elems.getD i default) = true :=
        ⟨hc1.1, (hasIPLen_at v 4 i).mpr hc1.2⟩
      rw [maxSelLoop, if_pos hc1, append_mkAcc, ih (i + 1) _ _ _ h', hd, takeQuota,
        if_pos hb1]
      simp
    · have hb1 : ¬ (0 < q4 ∧ isV4 v.fam (v.elems.getD i default) = true) := by
        intro hc
        exact hc1 ⟨hc.1, (hasIPLen_at v 4 i).mp hc.2⟩
      by_cases hc2 : 0 < q6 ∧ (v.IP i).length = 16
      · have hb2 : 0 < q6 ∧ isV6 v.fam (v.elems.getD i default) = true :=
          ⟨hc2.1, (hasIPLen_at v 16 i).mpr hc2.2⟩
        rw [maxSelLoop, if_neg hc1, if_pos hc2, append_mkAcc, ih (i + 1) _ _ _ h', hd,
          takeQuota, if_neg hb1, if_pos hb2]
        simp
      · have hb2 : ¬ (0 < q6 ∧ isV6 v.fam (v.elems.getD i default) = true) := by
          intro hc
          exact hc2 ⟨hc.1, (hasIPLen_at v 16 i).mp hc.2⟩
        rw [maxSelLoop, if_neg hc1, if_neg hc2, ih (i + 1) _ _ _ h', hd,
          takeQuota, if_neg hb1, if_neg hb2]

lemma takeQuota_sublist (p4 p16 : Addr → Bool) :
    ∀ (xs : List Addr) (q4 q6 : Int), (takeQuota p4 p16 xs q4 q6).Sublist xs := by
  intro xs
  induction xs with
  | nil => intro q4 q6; simp [takeQuota]
  | cons x xs ih =>
    intro q4 q6
    rw [takeQuota]
    split
    · exact (ih (q4 - 1) q6).cons₂ x
    · split
      · exact (ih q4 (q6 - 1)).cons₂ x
      · exact (ih q4 q6).cons x

lemma takeQuota_nil_of_nonpos (p4 p16 : Addr → Bool) :
    ∀ (xs : List Addr) (q4 q6 : Int), q4 ≤ 0 → q6 ≤ 0 →
      takeQuota p4 p16 xs q4 q6 = [] := by
  intro xs
  induction xs with
  | nil => intro q4 q6 _ _; rfl
  | cons x xs ih =>
    intro q4 q6 h4 h6
    rw [takeQuota, if_neg (by intro hc; omega), if_neg (by intro hc; omega)]
    exact ih q4 q6 h4 h6

lemma takeQuota_filter_left (p4 p16 : Addr → Bool)
    (hdisj : ∀ x, ¬(p4 x = true ∧ p16 x = true)) :
    ∀ (xs : List Addr) (q4 q6 : Int),
      (takeQuota p4 p16 xs q4 q6).filter p4 = (xs.filter p4).take q4.toNat := by
  intro xs
  induction xs with
  | nil => intro q4 q6; simp [takeQuota]
  | cons x xs ih =>
    intro q4 q6
    rw [takeQuota]
    by_cases hc1 : 0 < q4 ∧ p4 x = true
    · rw [if_pos hc1, List.filter_cons_of_pos hc1.2, List.filter_cons_of_pos hc1.2,
        ih (q4 - 1) q6]
      obtain ⟨k, hk⟩ : ∃ k, q4.toNat = k + 1 := ⟨q4.toNat - 1, by omega⟩
      rw [hk, List.take_succ_cons]
      have : (q4 - 1).toNat = k := by omega
      rw [this]
    · rw [if_neg hc1]
      by_cases hp : p4 x = true
      · have hq : ¬ 0 < q4 := fun h0 => hc1 ⟨h0, hp⟩
        have hz : q4.toNat = 0 := by omega
        rw [List.filter_cons_of_pos hp, hz, List.take_zero]
        by_cases hc2 : 0 < q6 ∧ p16 x = true
        · exact absurd ⟨hp, hc2.2⟩ (hdisj x)
        · rw [if_neg hc2, ih q4 q6, hz, List.take_zero]
      · rw [List.filter_cons_of_neg hp]
        by_cases hc2 : 0 < q6 ∧ p16 x = true
        · rw [if_pos hc2, List.filter_cons_of_neg hp, ih q4 (q6 - 1)]
        · rw [if_neg hc2, ih q4 q6]

lemma takeQuota_filter_right (p4 p16 : Addr → Bool)
    (hdisj : ∀ x, ¬(p4 x = true ∧ p16 x = true)) :
    ∀ (xs : List Addr) (q4 q6 : Int),
      (takeQuota p4 p16 xs q4 q6).filter p16 = (xs.filter p16).take q6.toNat := by
  intro xs
  induction xs with
  | nil => intro q4 q6; simp [takeQuota]
  | cons x xs ih =>
    intro q4 q6
    rw [takeQuota]
    by_cases hc1 : 0 < q4 ∧ p4 x = true
    · have hnp : ¬ p16 x = true := fun hc => hdisj x ⟨hc1.2, hc⟩
      rw [if_pos hc1, List.filter_cons_of_neg hnp, List.filter_cons_of_neg hnp,
        ih (q4 - 1) q6]
    · rw [if_neg hc1]
      by_cases hc2 : 0 < q6 ∧ p16 x = true
      · rw [if_pos hc2, List.filter_cons_of_pos hc2.2, List.filter_cons_of_pos hc2.2,
          ih q4 (q6 - 1)]
        obtain ⟨k, hk⟩ : ∃ k, q6.toNat = k + 1 := ⟨q6.toNat - 1, by omega⟩
        rw [hk, List.take_succ_cons]
        have : (q6 - 1).toNat = k := by omega
        rw [this]
      · by_cases hp : p16 x = true
        · have hq : ¬ 0 < q6 := fun h0 => hc2 ⟨h0, hp⟩
          have hz : q6.toNat = 0 := by omega
          rw [if_neg hc2, List.filter_cons_of_pos hp, hz, List.take_zero, ih q4 q6, hz,
            List.take_zero]
        · rw [if_neg hc2, List.filter_cons_of_neg hp, ih q4 q6]

lemma length_filter_split (p4 p16 : Addr → Bool)
    (hdisj : ∀ x, ¬(p4 x = true ∧ p16 x = true)) :
    ∀ (l : List Addr), (∀ e ∈ l, p4 e = true ∨ p16 e = true) →
      l.length = (l.filter p4).length + (l.filter p16).length := by
  intro l
  induction l with
  | nil => intro _; simp
  | cons x xs ih =>
    intro hall
    have hx := hall x (List.mem_cons_self x xs)
    have hxs : ∀ e ∈ xs, p4 e = true ∨ p16 e = true := fun e he =>
      hall e (List.mem_cons_of_mem x he)
    rcases hx with h4 | h6
    · have hn6 : ¬ p16 x = true := fun hc => hdisj x ⟨h4, hc⟩
      rw [List.filter_cons_of_pos h4, List.filter_cons_of_neg hn6]
      simp [ih hxs]
      omega
    · have hn4 : ¬ p4 x = true := fun hc => hdisj x ⟨hc, h6⟩
      rw [List.filter_cons_of_neg hn4, List.filter_cons_of_pos h6]
      simp [ih hxs]
      omega

lemma isV4_isV6_disjoint (fam : Family) :
    ∀ x, ¬(isV4 fam x = true ∧ isV6 fam x = true) := by
  intro x hc
  have h4 := hc.1
  have h6 := hc.2
  simp [isV4, isV6, hasIPLen] at h4 h6
  omega

lemma reverseLoop_eq (v : AddrsVal) :
    ∀ (n : Nat) (l : List Addr), n ≤ v.Len →
      reverseLoop v n (mkAcc v.fam l) =
        mkAcc v.fam (l ++ (v.elems.take n).reverse) := by
  intro n
  induction n with
  | zero => intro l _; simp [reverseLoop]
  | succ n ih =>
    intro l h
    have hn : n < v.elems.length := by
      have := h
      simp [AddrsVal.Len] at this
      omega
    rw [reverseLoop, append_mkAcc, ih _ (by simp [AddrsVal.Len]; omega)]
    have ht : v.elems.take (n + 1) = v.elems.take n ++ [v.elems.getD n default] := by
      rw [List.getD_eq_getElem v.elems default hn]
      rw [List.take_succ, List.getElem?_eq_getElem hn]
      rfl
    rw [ht]
    simp

lemma shuffleLoop_eq (v : AddrsVal) :
    ∀ (is : List Nat) (l : List Addr),
      shuffleLoop v is (mkAcc v.fam l) =
        mkAcc v.fam (l ++ is.map fun i => v.elems.getD i default) := by
  intro is
  induction is with
  | nil => intro l; simp [shuffleLoop]
  | cons i is ih =>
    intro l
    rw [shuffleLoop, append_mkAcc, ih]
    simp

lemma firstEachSel_done (p4 p16 : Addr → Bool) :
    ∀ xs : List Addr, firstEachSel p4 p16 xs true true = [] := by
  intro xs
  induction xs with
  | nil => rfl
  | cons x xs ih =>
    rw [firstEachSel, if_neg (by simp), if_neg (by simp)]
    exact ih

lemma firstEachSel_sublist (p4 p16 : Addr → Bool) :
    ∀ (xs : List Addr) (b4 b6 : Bool), (firstEachSel p4 p16 xs b4 b6).Sublist xs := by
  intro xs
  induction xs with
  | nil => intro b4 b6; simp [firstEachSel]
  | cons x xs ih =>
    intro b4 b6
    rw [firstEachSel]
    split
    · exact (ih true b6).cons₂ x
    · split
      · exact (ih b4 true).cons₂ x
      · exact (ih b4 b6).cons x

lemma firstEachSel_mem (p4 p16 : Addr → Bool) :
    ∀ (xs : List Addr) (b4 b6 : Bool) (e : Addr), e ∈ firstEachSel p4 p16 xs b4 b6 →
      p4 e = true ∨ p16 e = true := by
  intro xs
  induction xs with
  | nil => intro b4 b6 e he; simp [firstEachSel] at he
  | cons x xs ih =>
    intro b4 b6 e he
    rw [firstEachSel] at he
    by_cases hc1 : ¬b4 ∧ p4 x = true
    · rw [if_pos hc1] at he
      rcases List.mem_cons.mp he with rfl | hm
      · exact Or.inl hc1.2
      · exact ih true b6 e hm
    · rw [if_neg hc1] at he
      by_cases hc2 : ¬b6 ∧ p16 x = true
      · rw [if_pos hc2] at he
        rcases List.mem_cons.mp he with rfl | hm
        · exact Or.inr hc2.2
        · exact ih b4 true e hm
      · rw [if_neg hc2] at he
        exact ih b4 b6 e he

lemma firstEachSel_filter_left (p4 p16 : Addr → Bool)
    (hdisj : ∀ x, ¬(p4 x = true ∧ p16 x = true)) :
    ∀ (xs : List Addr) (b4 b6 : Bool),
      (firstEachSel p4 p16 xs b4 b6).filter p4 =
        if b4 then [] else (xs.filter p4).take 1 := by
  intro xs
  induction xs with
  | nil => intro b4 b6; cases b4 <;> simp [firstEachSel]
  | cons x xs ih =>
    intro b4 b6
    rw [firstEachSel]
    by_cases hc1 : ¬b4 ∧ p4 x = true
    · have hb4 : b4 = false := by
        cases b4
        · rfl
        · exact (hc1.1 rfl).elim
      subst hb4
      rw [if_pos hc1, List.filter_cons_of_pos hc1.2, ih true b6, if_pos rfl,
        List.filter_cons_of_pos hc1.2]
      simp
    · rw [if_neg hc1]
      by_cases hc2 : ¬b6 ∧ p16 x = true
      · have hnp : ¬ p4 x = true := fun hc => hdisj x ⟨hc, hc2.2⟩
        rw [if_pos hc2, List.filter_cons_of_neg hnp, ih b4 true,
          List.filter_cons_of_neg hnp]
      · rw [if_neg hc2, ih b4 b6]
        cases b4 with
        | false =>
          have hnp : ¬ p4 x = true := by
            intro hc
            exact hc1 ⟨by simp, hc⟩
          rw [List.filter_cons_of_neg hnp]
        | true => rfl

lemma firstEachSel_filter_right (p4 p16 : Addr → Bool)
    (hdisj : ∀ x, ¬(p4 x = true ∧ p16 x = true)) :
    ∀ (xs : List Addr) (b4 b6 : Bool),
      (firstEachSel p4 p16 xs b4 b6).filter p16 =
        if b6 then [] else (xs.filter p16).take 1 := by
  intro xs
  induction xs with
  | nil => intro b4 b6; cases b6 <;> simp [firstEachSel]
  | cons x xs ih =>
    intro b4 b6
    rw [firstEachSel]
    by_cases hc1 : ¬b4 ∧ p4 x = true
    · have hnp : ¬ p16 x = true := fun hc => hdisj x ⟨hc1.2, hc⟩
      rw [if_pos hc1, List.filter_cons_of_neg hnp, ih true b6,
        List.filter_cons_of_neg hnp]
    · rw [if_neg hc1]
      by_cases hc2 : ¬b6 ∧ p16 x = true
      · have hb6 : b6 = false := by
          cases b6
          · rfl
          · exact (hc2.1 rfl).elim
        subst hb6
        rw [if_pos hc2, List.filter_cons_of_pos hc2.2, ih b4 true, if_pos rfl,
          List.filter_cons_of_pos hc2.2]
        simp
      · rw [if_neg hc2, ih b4 b6]
        cases b6 with
        | false =>
          have hnp : ¬ p16 x = true := by
            intro hc
            exact hc2 ⟨by simp, hc⟩
          rw [List.filter_cons_of_neg hnp]
        | true => rfl

lemma firstEachLoop_eq (v : AddrsVal) :
    ∀ (n i : Nat) (b4 b6 : Bool) (l : List Addr), i + n = v.Len →
      firstEachLoop v n i b4 b6 (mkAcc v.fam l) =
        mkAcc v.fam (l ++ firstEachSel (isV4 v.fam) (isV6 v.fam) (v.elems.drop i) b4 b6) := by
  intro n
  induction n with
  | zero =>
    intro i b4 b6 l h
    have hi : i = v.elems.length := by simpa [AddrsVal.Len] using h
    subst hi
    simp [firstEachLoop, List.drop_length, firstEachSel]
  | succ n ih =>
    intro i b4 b6 l h
    have hi : i < v.elems.length := by
      have := h
      simp [AddrsVal.Len] at this
      omega
    have hd := drop_decomp v.elems i hi
    have h' : (i + 1) + n = v.Len := by omega
    by_cases hc1 : ¬b4 ∧ (v.IP i).length = 4
    · have hb1 : ¬b4 ∧ isV4 v.fam (v.elems.getD i default) = true :=
        ⟨hc1.1, (hasIPLen_at v 4 i).mpr hc1.2⟩
      rw [firstEachLoop, if_pos hc1, hd, firstEachSel, if_pos hb1]
      cases b6 with
      | true =>
        rw [if_pos rfl, append_mkAcc, firstEachSel_done]
      | false =>
        rw [if_neg (by simp), append_mkAcc, ih (i + 1) true false _ h']
        simp
    · have hb1 : ¬(¬b4 ∧ isV4 v.fam (v.elems.getD i default) = true) := by
        intro hc
        exact hc1 ⟨hc.1, (hasIPLen_at v 4 i).mp hc.2⟩
      by_cases hc2 : ¬b6 ∧ (v.IP i).length = 16
      · have hb2 : ¬b6 ∧ isV6 v.fam (v.elems.getD i default) = true :=
          ⟨hc2.1, (hasIPLen_at v 16 i).mpr hc2.2⟩
        rw [firstEachLoop, if_neg hc1, if_pos hc2, hd, firstEachSel, if_neg hb1,
          if_pos hb2]
        cases b4 with
        | true =>
          rw [if_pos rfl, append_mkAcc, firstEachSel_done]
        | false =>
          rw [if_neg (by simp), append_mkAcc, ih (i + 1) false true _ h']
          simp
      · have hb2 : ¬(¬b6 ∧ isV6 v.fam (v.elems.getD i default) = true) := by
          intro hc
          exact hc2 ⟨hc.1, (hasIPLen_at v 16 i).mp hc.2⟩
        rw [firstEachLoop, if_neg hc1, if_neg hc2, hd, firstEachSel, if_neg hb1,
          if_neg hb2]
        by_cases hb : b4 ∧ b6
        · rw [if_pos hb]
          obtain ⟨rfl, rfl⟩ : b4 = true ∧ b6 = true := by
            exact ⟨by simpa using hb.1, by simpa using hb.2⟩
          rw [firstEachSel_done]
          simp
        · rw [if_neg hb, ih (i + 1) b4 b6 _ h']

lemma defaultLoop_eq (v : AddrsVal) :
    ∀ (n i : Nat) (s : Option Nat), i + n = v.Len →
      defaultLoop v n i s =
        defaultSel (isV4 v.fam) (isV6 v.fam) v.fam (v.elems.drop i)
          (s.map fun j => v.elems.getD j default) := by
  intro n
  induction n with
  | zero =>
    intro i s h
    have hi : i = v.elems.length := by simpa [AddrsVal.Len] using h
    subst hi
    cases s with
    | none => simp [defaultLoop, List.drop_length, defaultSel]
    | some j => simp [defaultLoop, List.drop_length, defaultSel, AddrsVal.Append]
  | succ n ih =>
    intro i s h
    have hi : i < v.elems.length := by
      have := h
      simp [AddrsVal.Len] at this
      omega
    have hd := drop_decomp v.elems i hi
    have h' : (i + 1) + n = v.Len := by omega
    by_cases hp4 : (v.IP i).length = 4
    · have h4 : isV4 v.fam (v.elems.getD i default) = true :=
        (hasIPLen_at v 4 i).mpr hp4
      rw [defaultLoop, if_pos hp4, hd]
      simp only [defaultSel]
      rw [List.find?_cons_of_pos _ h4]
      simp [AddrsVal.Append]
    · have h4 : ¬ isV4 v.fam (v.elems.getD i default) = true := fun hc =>
        hp4 ((hasIPLen_at v 4 i).mp hc)
      by_cases hc2 : s = none ∧ (v.IP i).length = 16
      · have h6 : isV6 v.fam (v.elems.getD i default) = true :=
          (hasIPLen_at v 16 i).mpr hc2.2
        obtain ⟨rfl, h16⟩ := hc2
        rw [defaultLoop, if_neg hp4, if_pos ⟨rfl, h16⟩, ih (i + 1) (some i) h', hd]
        simp only [defaultSel, Option.map_some, Option.map_none]
        rw [List.find?_cons_of_neg _ h4, List.find?_cons_of_pos _ h6]
        cases hf : (v.elems.drop (i + 1)).find? (isV4 v.fam) with
        | none => simp
        | some e => rfl
      · rw [defaultLoop, if_neg hp4, if_neg hc2, ih (i + 1) s h', hd]
        cases s with
        | some j =>
          simp only [defaultSel]
          rw [List.find?_cons_of_neg _ h4]
          cases hf : (v.elems.drop (i + 1)).find? (isV4 v.fam) <;> simp
        | none =>
          have h6 : ¬ isV6 v.fam (v.elems.getD i default) = true := by
            intro hc
            exact hc2 ⟨rfl, (hasIPLen_at v 16 i).mp hc⟩
          simp only [defaultSel, Option.map_none]
          rw [List.find?_cons_of_neg _ h4, List.find?_cons_of_neg _ h6]

lemma none_eq_mkAcc_nil (fam : Family) : (none : Addrs) = mkAcc fam [] := rfl

lemma IPv4AddrsFilter_eq (v : AddrsVal) :
    IPv4AddrsFilter (some v) = mkAcc v.fam (v.elems.filter (isV4 v.fam)) := by
  have h := allLoop_eq v 4 v.Len 0 [] (by omega)
  simp only [List.drop_zero, List.nil_append] at h
  simpa [IPv4AddrsFilter, mkAcc, isV4] using h

lemma IPv6AddrsFilter_eq (v : AddrsVal) :
    IPv6AddrsFilter (some v) = mkAcc v.fam (v.elems.filter (isV6 v.fam)) := by
  have h := allLoop_eq v 16 v.Len 0 [] (by omega)
  simp only [List.drop_zero, List.nil_append] at h
  simpa [IPv6AddrsFilter, mkAcc, isV6] using h

lemma FirstIPv4AddrsFilter_eq (v : AddrsVal) :
    FirstIPv4AddrsFilter (some v) =
      (v.elems.find? (isV4 v.fam)).map fun e => AddrsVal.mk v.fam [e] := by
  have h := firstLoop_eq v 4 v.Len 0 (by omega)
  simp only [List.drop_zero] at h
  simpa [FirstIPv4AddrsFilter, isV4] using h

lemma FirstIPv6AddrsFilter_eq (v : AddrsVal) :
    FirstIPv6AddrsFilter (some v) =
      (v.elems.find? (isV6 v.fam)).map fun e => AddrsVal.mk v.fam [e] := by
  have h := firstLoop_eq v 16 v.Len 0 (by omega)
  simp only [List.drop_zero] at h
  simpa [FirstIPv6AddrsFilter, isV6] using h

lemma DefaultAddrsFilter_eq (v : AddrsVal) (h1 : 1 < v.Len) :
    DefaultAddrsFilter (some v) =
      defaultSel (isV4 v.fam) (isV6 v.fam) v.fam v.elems none := by
  have h := defaultLoop_eq v v.Len 0 none (by omega)
  simp only [List.drop_zero, Option.map_none] at h
  simpa [DefaultAddrsFilter, if_neg (by omega : ¬ v.Len ≤ 1)] using h

lemma FirstEachAddrsFilter_eq (v : AddrsVal) (h1 : 1 < v.Len) :
    FirstEachAddrsFilter (some v) =
      mkAcc v.fam (firstEachSel (isV4 v.fam) (isV6 v.fam) v.elems false false) := by
  have h := firstEachLoop_eq v v.Len 0 false false [] (by omega)
  simp only [List.drop_zero, List.nil_append] at h
  simpa [FirstEachAddrsFilter, if_neg (by omega : ¬ v.Len ≤ 1), mkAcc] using h

lemma ReverseAddrsFilter_eq (v : AddrsVal) (h1 : 1 < v.Len) :
    ReverseAddrsFilter (some v) = mkAcc v.fam v.elems.reverse := by
  have h := reverseLoop_eq v v.Len [] (by omega)
  have hn : ¬ v.Len ≤ 1 := by omega
  simp only [ReverseAddrsFilter, if_neg hn]
  simpa [mkAcc, AddrsVal.Len, List.take_length] using h

lemma ShuffleAddrsFilter_eq (perm : Nat → List Nat) (v : AddrsVal) (h1 : 1 < v.Len) :
    ShuffleAddrsFilter perm (some v) =
      mkAcc v.fam ((perm v.Len).map fun i => v.elems.getD i default) := by
  have h := shuffleLoop_eq v (perm v.Len) []
  simp only [List.nil_append] at h
  simpa [ShuffleAddrsFilter, if_neg (by omega : ¬ v.Len ≤ 1), mkAcc] using h

lemma MaxAddrsFilter_eq (max : Int) (v : AddrsVal) (h : ¬ (v.Len : Int) ≤ max) :
    MaxAddrsFilter max (some v) =
      mkAcc v.fam (takeQuota (isV4 v.fam) (isV6 v.fam) v.elems
        (if ((v.elems.filter (isV6 v.fam)).length : Int) ≤ max.tdiv 2 then
           max - ((v.elems.filter (isV6 v.fam)).length : Int)
         else if ((v.elems.filter (isV4 v.fam)).length : Int) ≤ max.tdiv 2 then
           ((v.elems.filter (isV4 v.fam)).length : Int)
         else max - max.tdiv 2)
        (if ((v.elems.filter (isV6 v.fam)).length : Int) ≤ max.tdiv 2 then
           ((v.elems.filter (isV6 v.fam)).length : Int)
         else if ((v.elems.filter (isV4 v.fam)).length : Int) ≤ max.tdiv 2 then
           max - ((v.elems.filter (isV4 v.fam)).length : Int)
         else max.tdiv 2)) := by
  have hc := countLoop_eq v v.Len 0 (0, 0) (by omega)
  simp only [List.drop_zero] at hc
  simp only [MaxAddrsFilter, if_neg h, hc]
  have hsel : ∀ q4 q6 : Int,
      maxSelLoop v v.Len 0 q4 q6 none =
        mkAcc v.fam (takeQuota (isV4 v.fam) (isV6 v.fam) v.elems q4 q6) := by
    intro q4 q6
    have hs := maxSelLoop_eq v v.Len 0 q4 q6 [] (by omega)
    simp only [List.drop_zero, List.nil_append] at hs
    simpa [mkAcc] using hs
  by_cases hA : ((v.elems.filter (isV6 v.fam)).length : Int) ≤ max.tdiv 2
  · simp only [zero_add, if_pos hA]
    exact hsel _ _
  · by_cases hB : ((v.elems.filter (isV4 v.fam)).length : Int) ≤ max.tdiv 2
    · simp only [zero_add, if_neg hA, if_pos hB]
      exact hsel _ _
    · simp only [zero_add, if_neg hA, if_neg hB]
      exact hsel _ _

/-- C2: DefaultAddrsFilter returns a collection of at most one element
unchanged; otherwise it returns the first element whose IP has length 4 as
a singleton; failing that, the first element whose IP has length 16 as a
singleton; and when a non-empty collection contains neither, it returns
absent. -/
theorem defaultAddrsFilter_spec (v : AddrsVal) :
    (v.Len ≤ 1 → DefaultAddrsFilter (some v) = some v) ∧
    (1 < v.Len → ∀ e, v.elems.find? (isV4 v.fam) = some e →
      DefaultAddrsFilter (some v) = some ⟨v.fam, [e]⟩) ∧
    (1 < v.Len → v.elems.find? (isV4 v.fam) = none →
      ∀ e, v.elems.find? (isV6 v.fam) = some e →
        DefaultAddrsFilter (some v) = some ⟨v.fam, [e]⟩) ∧
    (1 < v.Len → v.elems.find? (isV4 v.fam) = none →
      v.elems.find? (isV6 v.fam) = none → DefaultAddrsFilter (some v) = none) := by
  refine ⟨?_, ?_, ?_, ?_⟩
  · intro h1
    simp [DefaultAddrsFilter, if_pos h1]
  · intro h1 e he
    rw [DefaultAddrsFilter_eq v h1]
    simp [defaultSel, he]
  · intro h1 h4 e he
    rw [DefaultAddrsFilter_eq v h1]
    simp [defaultSel, h4, he]
  · intro h1 h4 h6
    rw [DefaultAddrsFilter_eq v h1]
    simp [defaultSel, h4, h6]

/-- Witness for C2: on a two-element collection whose only IPv4 address is
its second element, Default returns that IPv4 address as a singleton. -/
theorem defaultAddrsFilter_spec_witness :
    DefaultAddrsFilter (some ⟨Family.tcp, [wB, wA]⟩) = some ⟨Family.tcp, [wA]⟩ :=
  (defaultAddrsFilter_spec ⟨Family.tcp, [wB, wA]⟩).2.1 (by decide) wA (by decide)

/-- C3 counterexample: Append with a non-nil target of a different concrete
family does not drop the element at index i of self; it returns a fresh
singleton of self's family that contains exactly that element (what is
discarded is the target's contents). -/
theorem append_mismatch_counterexample :
    (AddrsVal.mk Family.tcp [wA]).Append (some ⟨Family.udp, [wB]⟩) 0 =
      some ⟨Family.tcp, [wA]⟩ ∧
    wA ∈ aelems ((AddrsVal.mk Family.tcp [wA]).Append (some ⟨Family.udp, [wB]⟩) 0) := by
  decide

/-- C3 amended: for every collection self, index i within bounds and
non-nil target of a different concrete family, Append silently discards
the target's existing elements and returns a fresh collection of self's
family containing only the element at index i of self; no failure is
signalled. -/
theorem append_mismatch_fresh (self tv : AddrsVal) (i : Nat)
    (_hi : i < self.Len) (hfam : tv.fam ≠ self.fam) :
    self.Append (some tv) i = some ⟨self.fam, [self.elems.getD i default]⟩ := by
  simp [AddrsVal.Append, hfam]

/-- Witness for the amended C3 at a concrete tcp/udp pair. -/
theorem append_mismatch_fresh_witness :
    (AddrsVal.mk Family.tcp [wA, wC]).Append (some ⟨Family.udp, [wB]⟩) 1 =
      some ⟨Family.tcp, [wC]⟩ :=
  append_mismatch_fresh ⟨Family.tcp, [wA, wC]⟩ ⟨Family.udp, [wB]⟩ 1 (by decide) (by decide)

/-- C6: FirstEachAddrsFilter returns a collection of at most one element
unchanged; on a longer collection its output is a subsequence of the input
(hence in encounter order) whose IPv4 part is the first IPv4 address of the
input, whose IPv6 part is the first IPv6 address of the input (at most one
of each), and which contains nothing else. -/
theorem firstEachAddrsFilter_spec (v : AddrsVal) :
    (v.Len ≤ 1 → FirstEachAddrsFilter (some v) = some v) ∧
    (1 < v.Len →
      (aelems (FirstEachAddrsFilter (some v))).Sublist v.elems ∧
      (aelems (FirstEachAddrsFilter (some v))).filter (isV4 v.fam) =
        (v.elems.filter (isV4 v.fam)).take 1 ∧
      (aelems (FirstEachAddrsFilter (some v))).filter (isV6 v.fam) =
        (v.elems.filter (isV6 v.fam)).take 1 ∧
      ∀ e ∈ aelems (FirstEachAddrsFilter (some v)),
        isV4 v.fam e = true ∨ isV6 v.fam e = true) := by
  constructor
  · intro h1
    simp [FirstEachAddrsFilter, if_pos h1]
  · intro h1
    rw [FirstEachAddrsFilter_eq v h1, aelems_mkAcc]
    have hdisj := isV4_isV6_disjoint v.fam
    refine ⟨firstEachSel_sublist _ _ _ _ _, ?_, ?_,
      fun e he => firstEachSel_mem _ _ _ _ _ e he⟩
    · have h := firstEachSel_filter_left _ _ hdisj v.elems false false
      simpa using h
    · have h := firstEachSel_filter_right _ _ hdisj v.elems false false
      simpa using h

/-- Witness for C6: on [v4, v4, v6] the output's IPv4 part is the first
IPv4 address of the input. -/
theorem firstEachAddrsFilter_spec_witness :
    (aelems (FirstEachAddrsFilter (some ⟨Family.tcp, [wA, wC, wB]⟩))).filter
        (isV4 Family.tcp) =
      ([wA, wC, wB].filter (isV4 Family.tcp)).take 1 :=
  ((firstEachAddrsFilter_spec ⟨Family.tcp, [wA, wC, wB]⟩).2 (by decide)).2.1

/-- C7: IPv4AddrsFilter returns exactly the elements whose IP has length 4
in original relative order (absent when none match), and symmetrically for
IPv6AddrsFilter with length 16; every element of either output is of the
corresponding family. -/
theorem ipv4v6AddrsFilter_spec (v : AddrsVal) :
    IPv4AddrsFilter (some v) = mkAcc v.fam (v.elems.filter (isV4 v.fam)) ∧
    IPv6AddrsFilter (some v) = mkAcc v.fam (v.elems.filter (isV6 v.fam)) ∧
    (v.elems.filter (isV4 v.fam) = [] → IPv4AddrsFilter (some v) = none) ∧
    (v.elems.filter (isV6 v.fam) = [] → IPv6AddrsFilter (some v) = none) ∧
    (∀ e ∈ aelems (IPv4AddrsFilter (some v)), isV4 v.fam e = true) ∧
    (∀ e ∈ aelems (IPv6AddrsFilter (some v)), isV6 v.fam e = true) := by
  refine ⟨IPv4AddrsFilter_eq v, IPv6AddrsFilter_eq v, ?_, ?_, ?_, ?_⟩
  · intro h
    rw [IPv4AddrsFilter_eq v, h]
    rfl
  · intro h
    rw [IPv6AddrsFilter_eq v, h]
    rfl
  · intro e he
    rw [IPv4AddrsFilter_eq v, aelems_mkAcc] at he
    exact List.of_mem_filter he
  · intro e he
    rw [IPv6AddrsFilter_eq v, aelems_mkAcc] at he
    exact List.of_mem_filter he

/-- Witness for C7: the all-IPv4 filter returns absent on an IPv6-only
collection. -/
theorem ipv4v6AddrsFilter_spec_witness :
    IPv4AddrsFilter (some ⟨Family.tcp, [wB, wD]⟩) = none :=
  (ipv4v6AddrsFilter_spec ⟨Family.tcp, [wB, wD]⟩).2.2.1 (by decide)

/-- C8: ReverseAddrsFilter returns a collection of at most one element
unchanged; a longer collection comes back with the elements in reverse
index order (element i of the output is element Len-1-i of the input); and
applying the filter twice is the identity on every input. -/
theorem reverseAddrsFilter_spec :
    (∀ v : AddrsVal, v.Len ≤ 1 → ReverseAddrsFilter (some v) = some v) ∧
    (∀ v : AddrsVal, 1 < v.Len →
      ReverseAddrsFilter (some v) = some ⟨v.fam, v.elems.reverse⟩ ∧
      ∀ i, i < v.Len →
        (aelems (ReverseAddrsFilter (some v))).getD i default =
          v.elems.getD (v.Len - 1 - i) default) ∧
    (∀ addrs : Addrs, ReverseAddrsFilter (ReverseAddrsFilter addrs) = addrs) := by
  have hbig : ∀ v : AddrsVal, 1 < v.Len →
      ReverseAddrsFilter (some v) = some ⟨v.fam, v.elems.reverse⟩ := by
    intro v h1
    rw [ReverseAddrsFilter_eq v h1, mkAcc_ne_nil]
    intro hc
    have he : v.elems = [] := by simpa using hc
    rw [AddrsVal.Len, he] at h1
    simp at h1
  refine ⟨?_, ?_, ?_⟩
  · intro v h1
    simp [ReverseAddrsFilter, if_pos h1]
  · intro v h1
    refine ⟨hbig v h1, ?_⟩
    intro i hi
    rw [hbig v h1]
    have hi' : i < v.elems.length := by simpa [AddrsVal.Len] using hi
    have hr : i < v.elems.reverse.length := by simpa using hi'
    show v.elems.reverse.getD i default = _
    rw [List.getD_eq_getElem _ default hr,
      List.getD_eq_getElem _ default (show v.Len - 1 - i < v.elems.length by
        simp only [AddrsVal.Len]
        omega)]
    simp only [AddrsVal.Len]
    exact List.getElem_reverse hr
  · intro addrs
    cases addrs with
    | none => rfl
    | some v =>
      by_cases h1 : v.Len ≤ 1
      · have hv : ReverseAddrsFilter (some v) = some v := by
          simp [ReverseAddrsFilter, if_pos h1]
        rw [hv, hv]
      · have h1' : 1 < v.Len := by omega
        rw [hbig v h1']
        have h2 : 1 < (AddrsVal.mk v.fam v.elems.reverse).Len := by
          simpa [AddrsVal.Len] using h1'
        rw [hbig _ h2]
        simp

/-- Witness for C8: reversing a concrete two-element collection swaps its
elements. -/
theorem reverseAddrsFilter_spec_witness :
    ReverseAddrsFilter (some ⟨Family.tcp, [wA, wB]⟩) = some ⟨Family.tcp, [wB, wA]⟩ :=
  ((reverseAddrsFilter_spec.2.1 ⟨Family.tcp, [wA, wB]⟩) (by decide)).1

/-- C9: ComposeAddrsFilters threads a collection through the given filters
in the given order: composing two filters applies the first then the
second, appending two filter lists composes the corresponding composites,
and a cons runs the head first. -/
theorem composeAddrsFilters_spec :
    (∀ (f g : AddrsFilter) (x : Addrs), ComposeAddrsFilters [f, g] x = g (f x)) ∧
    (∀ (fs gs : List AddrsFilter) (x : Addrs),
      ComposeAddrsFilters (fs ++ gs) x =
        ComposeAddrsFilters gs (ComposeAddrsFilters fs x)) ∧
    (∀ (f : AddrsFilter) (fs : List AddrsFilter) (x : Addrs),
      ComposeAddrsFilters (f :: fs) x = ComposeAddrsFilters fs (f x)) := by
  refine ⟨fun f g x => rfl, ?_, fun f fs x => rfl⟩
  intro fs gs x
  simp [ComposeAddrsFilters, List.foldl_append]

lemma absentPreserving_compose :
    ∀ filters : List AddrsFilter, (∀ f ∈ filters, AbsentPreserving f) →
      AbsentPreserving (ComposeAddrsFilters filters) := by
  intro filters
  induction filters with
  | nil => intro _; rfl
  | cons f fs ih =>
    intro h
    have hf : f none = none := h f (List.mem_cons_self f fs)
    show ComposeAddrsFilters (f :: fs) none = none
    have hstep : ComposeAddrsFilters (f :: fs) none = ComposeAddrsFilters fs (f none) := rfl
    rw [hstep, hf]
    exact ih fun g hg => h g (List.mem_cons_of_mem f hg)

lemma lenBounded_compose :
    ∀ filters : List AddrsFilter, (∀ f ∈ filters, LenBounded f) →
      LenBounded (ComposeAddrsFilters filters) := by
  intro filters
  induction filters with
  | nil => intro _ addrs; exact Nat.le_refl _
  | cons f fs ih =>
    intro h addrs
    have hstep : ComposeAddrsFilters (f :: fs) addrs = ComposeAddrsFilters fs (f addrs) := rfl
    rw [hstep]
    exact Nat.le_trans
      (ih (fun g hg => h g (List.mem_cons_of_mem f hg)) (f addrs))
      (h f (List.mem_cons_self f fs) addrs)

lemma lenBounded_default : LenBounded DefaultAddrsFilter := by
  intro addrs
  cases addrs with
  | none => exact Nat.le_refl 0
  | some v =>
    by_cases h1 : v.Len ≤ 1
    · simp [DefaultAddrsFilter, if_pos h1]
    · have h1' : 1 < v.Len := by omega
      have hlen : 1 < v.elems.length := by simpa [AddrsVal.Len] using h1'
      rw [DefaultAddrsFilter_eq v h1']
      simp only [defaultSel]
      cases hf4 : v.elems.find? (isV4 v.fam) with
      | some e =>
        simp [alen, AddrsVal.Len]
        omega
      | none =>
        cases hf6 : v.elems.find? (isV6 v.fam) with
        | none => simp [alen]
        | some e =>
          simp [alen, AddrsVal.Len]
          omega

lemma lenBounded_no : LenBounded NoAddrsFilter := fun _ => Nat.le_refl _

lemma lenBounded_first : LenBounded FirstAddrsFilter := by
  intro addrs
  cases addrs with
  | none => exact Nat.le_refl 0
  | some v =>
    by_cases h1 : v.Len ≤ 1
    · simp [FirstAddrsFilter, if_pos h1]
    · have hlen : 1 < v.elems.length := by
        have := h1
        simp [AddrsVal.Len] at this
        omega
      have h1'' : ¬ v.elems.length ≤ 1 := by omega
      simp [FirstAddrsFilter, AddrsVal.Append, alen, AddrsVal.Len, h1'']
      omega

lemma lenBounded_firstEach : LenBounded FirstEachAddrsFilter := by
  intro addrs
  cases addrs with
  | none => exact Nat.le_refl 0
  | some v =>
    by_cases h1 : v.Len ≤ 1
    · simp [FirstEachAddrsFilter, if_pos h1]
    · have h1' : 1 < v.Len := by omega
      rw [FirstEachAddrsFilter_eq v h1', alen_mkAcc]
      have hs := firstEachSel_sublist (isV4 v.fam) (isV6 v.fam) v.elems false false
      simpa [alen, AddrsVal.Len] using hs.length_le

lemma lenBounded_firstIPv4 : LenBounded FirstIPv4AddrsFilter := by
  intro addrs
  cases addrs with
  | none => exact Nat.le_refl 0
  | some v =>
    rw [FirstIPv4AddrsFilter_eq v]
    cases hf : v.elems.find? (isV4 v.fam) with
    | none => simp [alen]
    | some e =>
      have hmem := List.mem_of_find?_eq_some hf
      have hpos : 0 < v.elems.length := List.length_pos.mpr (List.ne_nil_of_mem hmem)
      simp [alen, AddrsVal.Len]
      omega

lemma lenBounded_firstIPv6 : LenBounded FirstIPv6AddrsFilter := by
  intro addrs
  cases addrs with
  | none => exact Nat.le_refl 0
  | some v =>
    rw [FirstIPv6AddrsFilter_eq v]
    cases hf : v.elems.find? (isV6 v.fam) with
    | none => simp [alen]
    | some e =>
      have hmem := List.mem_of_find?_eq_some hf
      have hpos : 0 < v.elems.length := List.length_pos.mpr (List.ne_nil_of_mem hmem)
      simp [alen, AddrsVal.Len]
      omega

lemma lenBounded_ipv4 : LenBounded IPv4AddrsFilter := by
  intro addrs
  cases addrs with
  | none => exact Nat.le_refl 0
  | some v =>
    rw [IPv4AddrsFilter_eq v, alen_mkAcc]
    simpa [alen, AddrsVal.Len] using List.length_filter_le (isV4 v.fam) v.elems

lemma lenBounded_ipv6 : LenBounded IPv6AddrsFilter := by
  intro addrs
  cases addrs with
  | none => exact Nat.le_refl 0
  | some v =>
    rw [IPv6AddrsFilter_eq v, alen_mkAcc]
    simpa [alen, AddrsVal.Len] using List.length_filter_le (isV6 v.fam) v.elems

lemma lenBounded_max (max : Int) : LenBounded (MaxAddrsFilter max) := by
  intro addrs
  cases addrs with
  | none => exact Nat.le_refl 0
  | some v =>
    by_cases h : (v.Len : Int) ≤ max
    · simp [MaxAddrsFilter, if_pos h]
    · rw [MaxAddrsFilter_eq max v h, alen_mkAcc]
      have halen : alen (some v) = v.elems.length := rfl
      rw [halen]
      exact (takeQuota_sublist _ _ v.elems _ _).length_le

lemma lenBounded_reverse : LenBounded ReverseAddrsFilter := by
  intro addrs
  cases addrs with
  | none => exact Nat.le_refl 0
  | some v =>
    by_cases h1 : v.Len ≤ 1
    · simp [ReverseAddrsFilter, if_pos h1]
    · have h1' : 1 < v.Len := by omega
      rw [ReverseAddrsFilter_eq v h1', alen_mkAcc]
      simp [alen, AddrsVal.Len]

lemma lenBounded_shuffle (perm : Nat → List Nat) (hperm : ∀ n, (perm n).length = n) :
    LenBounded (ShuffleAddrsFilter perm) := by
  intro addrs
  cases addrs with
  | none => exact Nat.le_refl 0
  | some v =>
    by_cases h1 : v.Len ≤ 1
    · simp [ShuffleAddrsFilter, if_pos h1]
    · have h1' : 1 < v.Len := by omega
      rw [ShuffleAddrsFilter_eq perm v h1', alen_mkAcc]
      simp [alen, AddrsVal.Len, hperm]

/-- C4: every filter of the library maps the absent (nil) collection to
absent, and a composition of filters that each preserve absence preserves
absence; in the embedding the absent collection carries no value, so no
accessor is consulted. -/
theorem filters_absent_preserving :
    AbsentPreserving DefaultAddrsFilter ∧ AbsentPreserving NoAddrsFilter ∧
    AbsentPreserving FirstAddrsFilter ∧ AbsentPreserving FirstEachAddrsFilter ∧
    AbsentPreserving FirstIPv4AddrsFilter ∧ AbsentPreserving FirstIPv6AddrsFilter ∧
    AbsentPreserving IPv4AddrsFilter ∧ AbsentPreserving IPv6AddrsFilter ∧
    (∀ max : Int, AbsentPreserving (MaxAddrsFilter max)) ∧
    AbsentPreserving ReverseAddrsFilter ∧
    (∀ perm : Nat → List Nat, AbsentPreserving (ShuffleAddrsFilter perm)) ∧
    (∀ filters : List AddrsFilter, (∀ f ∈ filters, AbsentPreserving f) →
      AbsentPreserving (ComposeAddrsFilters filters)) :=
  ⟨rfl, rfl, rfl, rfl, rfl, rfl, rfl, rfl, fun _ => rfl, rfl, fun _ => rfl,
   absentPreserving_compose⟩

/-- Witness for C4: a concrete composition applied to the absent
collection yields absent. -/
theorem filters_absent_preserving_witness :
    ComposeAddrsFilters [DefaultAddrsFilter, ReverseAddrsFilter] none = none :=
  filters_absent_preserving.2.2.2.2.2.2.2.2.2.2.2
    [DefaultAddrsFilter, ReverseAddrsFilter]
    (by
      intro f hf
      rcases List.mem_cons.mp hf with rfl | hf
      · rfl
      · rcases List.mem_cons.mp hf with rfl | hf
        · rfl
        · simp at hf)

/-- C5: every filter of the library never lengthens its input (the absent
collection counting as length 0): all the named filters, every
MaxAddrsFilter instance, the shuffle filter whenever its randomness source
returns genuine permutations, and any composition of length-bounded
filters. -/
theorem filters_len_bounded :
    LenBounded DefaultAddrsFilter ∧ LenBounded NoAddrsFilter ∧
    LenBounded FirstAddrsFilter ∧ LenBounded FirstEachAddrsFilter ∧
    LenBounded FirstIPv4AddrsFilter ∧ LenBounded FirstIPv6AddrsFilter ∧
    LenBounded IPv4AddrsFilter ∧ LenBounded IPv6AddrsFilter ∧
    (∀ max : Int, LenBounded (MaxAddrsFilter max)) ∧
    LenBounded ReverseAddrsFilter ∧
    (∀ perm : Nat → List Nat, (∀ n, (perm n).length = n) →
      LenBounded (ShuffleAddrsFilter perm)) ∧
    (∀ filters : List AddrsFilter, (∀ f ∈ filters, LenBounded f) →
      LenBounded (ComposeAddrsFilters filters)) :=
  ⟨lenBounded_default, lenBounded_no, lenBounded_first, lenBounded_firstEach,
   lenBounded_firstIPv4, lenBounded_firstIPv6, lenBounded_ipv4, lenBounded_ipv6,
   lenBounded_max, lenBounded_reverse, lenBounded_shuffle, lenBounded_compose⟩

/-- Witness for C5: the shuffle filter with a concrete permutation source
does not lengthen a concrete two-element collection. -/
theorem filters_len_bounded_witness :
    alen (ShuffleAddrsFilter (fun n => (List.range n).reverse)
        (some ⟨Family.tcp, [wA, wB]⟩)) ≤
      alen (some ⟨Family.tcp, [wA, wB]⟩) :=
  filters_len_bounded.2.2.2.2.2.2.2.2.2.2.1 (fun n => (List.range n).reverse)
    (fun n => by simp) (some ⟨Family.tcp, [wA, wB]⟩)

lemma maxAddrs_conclusion (v : AddrsVal) (Q4 Q6 : Int) (maxN n4 n6 q4 q6 : Nat)
    (hall : ∀ e ∈ v.elems, isV4 v.fam e = true ∨ isV6 v.fam e = true)
    (hn4 : n4 = (v.elems.filter (isV4 v.fam)).length)
    (hn6 : n6 = (v.elems.filter (isV6 v.fam)).length)
    (hmax : maxN < n4 + n6)
    (hres : MaxAddrsFilter (maxN : Int) (some v) =
      mkAcc v.fam (takeQuota (isV4 v.fam) (isV6 v.fam) v.elems Q4 Q6))
    (hQ4 : Q4.toNat = q4) (hQ6 : Q6.toNat = q6)
    (h4n : q4 ≤ n4) (h6n : q6 ≤ n6) (hsum : q4 + q6 = maxN) :
    alen (MaxAddrsFilter (maxN : Int) (some v)) = min maxN (n4 + n6) ∧
    (aelems (MaxAddrsFilter (maxN : Int) (some v))).filter (isV4 v.fam) =
      (v.elems.filter (isV4 v.fam)).take q4 ∧
    (aelems (MaxAddrsFilter (maxN : Int) (some v))).filter (isV6 v.fam) =
      (v.elems.filter (isV6 v.fam)).take q6 ∧
    ((aelems (MaxAddrsFilter (maxN : Int) (some v))).filter (isV4 v.fam)).length = q4 ∧
    ((aelems (MaxAddrsFilter (maxN : Int) (some v))).filter (isV6 v.fam)).length = q6 ∧
    (aelems (MaxAddrsFilter (maxN : Int) (some v))).Sublist v.elems := by
  have hdisj := isV4_isV6_disjoint v.fam
  have hfl := takeQuota_filter_left _ _ hdisj v.elems Q4 Q6
  have hfr := takeQuota_filter_right _ _ hdisj v.elems Q4 Q6
  rw [hQ4] at hfl
  rw [hQ6] at hfr
  have hsub := takeQuota_sublist (isV4 v.fam) (isV6 v.fam) v.elems Q4 Q6
  have hfl_len :
      ((takeQuota (isV4 v.fam) (isV6 v.fam) v.elems Q4 Q6).filter (isV4 v.fam)).length =
        q4 := by
    rw [hfl, List.length_take, ← hn4]
    omega
  have hfr_len :
      ((takeQuota (isV4 v.fam) (isV6 v.fam) v.elems Q4 Q6).filter (isV6 v.fam)).length =
        q6 := by
    rw [hfr, List.length_take, ← hn6]
    omega
  have hallT : ∀ e ∈ takeQuota (isV4 v.fam) (isV6 v.fam) v.elems Q4 Q6,
      isV4 v.fam e = true ∨ isV6 v.fam e = true :=
    fun e he => hall e (hsub.subset he)
  have hTlen := length_filter_split _ _ hdisj _ hallT
  refine ⟨?_, ?_, ?_, ?_, ?_, ?_⟩
  · rw [hres, alen_mkAcc, hTlen, hfl_len, hfr_len]
    omega
  · rw [hres, aelems_mkAcc]
    exact hfl
  · rw [hres, aelems_mkAcc]
    exact hfr
  · rw [hres, aelems_mkAcc]
    exact hfl_len
  · rw [hres, aelems_mkAcc]
    exact hfr_len
  · rw [hres, aelems_mkAcc]
    exact hsub

/-- C1: on a collection of n4 IPv4 and n6 IPv6 addresses (and nothing
else) with max smaller than n4+n6, MaxAddrsFilter(max) emits, in a single
forward scan preserving original order (a subsequence of the input),
exactly min(max, n4+n6) addresses, split according to the half = max/2
formula with the rounding benefit to IPv4, and within each family the
earliest addresses of that family. -/
theorem maxAddrsFilter_exact (v : AddrsVal) (maxN n4 n6 q4 q6 : Nat)
    (hall : ∀ e ∈ v.elems, isV4 v.fam e = true ∨ isV6 v.fam e = true)
    (hn4 : n4 = (v.elems.filter (isV4 v.fam)).length)
    (hn6 : n6 = (v.elems.filter (isV6 v.fam)).length)
    (hmax : maxN < n4 + n6)
    (hq : (q4, q6) =
      if n6 ≤ maxN / 2 then (maxN - n6, n6)
      else if n4 ≤ maxN / 2 then (n4, maxN - n4)
      else (maxN - maxN / 2, maxN / 2)) :
    alen (MaxAddrsFilter (maxN : Int) (some v)) = min maxN (n4 + n6) ∧
    (aelems (MaxAddrsFilter (maxN : Int) (some v))).filter (isV4 v.fam) =
      (v.elems.filter (isV4 v.fam)).take q4 ∧
    (aelems (MaxAddrsFilter (maxN : Int) (some v))).filter (isV6 v.fam) =
      (v.elems.filter (isV6 v.fam)).take q6 ∧
    ((aelems (MaxAddrsFilter (maxN : Int) (some v))).filter (isV4 v.fam)).length = q4 ∧
    ((aelems (MaxAddrsFilter (maxN : Int) (some v))).filter (isV6 v.fam)).length = q6 ∧
    (aelems (MaxAddrsFilter (maxN : Int) (some v))).Sublist v.elems := by
  have hdisj := isV4_isV6_disjoint v.fam
  have hlen : v.elems.length = n4 + n6 := by
    rw [hn4, hn6]
    exact length_filter_split _ _ hdisj v.elems hall
  have hnotle : ¬ ((v.Len : Int) ≤ (maxN : Int)) := by
    simp only [AddrsVal.Len, hlen]
    exact_mod_cast (by omega : ¬ (n4 + n6 ≤ maxN))
  have hmeq := MaxAddrsFilter_eq (maxN : Int) v hnotle
  rw [← hn4, ← hn6] at hmeq
  have htdiv : ((maxN : Int)).tdiv 2 = ((maxN / 2 : Nat) : Int) := rfl
  rw [htdiv] at hmeq
  split_ifs at hq with hA hB
  · simp only [Prod.mk.injEq] at hq
    obtain ⟨hq4, hq6⟩ := hq
    have hc : ((n6 : Nat) : Int) ≤ ((maxN / 2 : Nat) : Int) := by exact_mod_cast hA
    rw [if_pos hc, if_pos hc] at hmeq
    exact maxAddrs_conclusion v _ _ maxN n4 n6 q4 q6 hall hn4 hn6 hmax hmeq
      (by omega) (by omega) (by omega) (by omega) (by omega)
  · simp only [Prod.mk.injEq] at hq
    obtain ⟨hq4, hq6⟩ := hq
    have hcA : ¬ ((n6 : Nat) : Int) ≤ ((maxN / 2 : Nat) : Int) := by exact_mod_cast hA
    have hcB : ((n4 : Nat) : Int) ≤ ((maxN / 2 : Nat) : Int) := by exact_mod_cast hB
    rw [if_neg hcA, if_neg hcA, if_pos hcB, if_pos hcB] at hmeq
    exact maxAddrs_conclusion v _ _ maxN n4 n6 q4 q6 hall hn4 hn6 hmax hmeq
      (by omega) (by omega) (by omega) (by omega) (by omega)
  · simp only [Prod.mk.injEq] at hq
    obtain ⟨hq4, hq6⟩ := hq
    have hcA : ¬ ((n6 : Nat) : Int) ≤ ((maxN / 2 : Nat) : Int) := by exact_mod_cast hA
    have hcB : ¬ ((n4 : Nat) : Int) ≤ ((maxN / 2 : Nat) : Int) := by exact_mod_cast hB
    rw [if_neg hcA, if_neg hcA, if_neg hcB, if_neg hcB] at hmeq
    exact maxAddrs_conclusion v _ _ maxN n4 n6 q4 q6 hall hn4 hn6 hmax hmeq
      (by omega) (by omega) (by omega) (by omega) (by omega)

/-- Witness for C1: three addresses (two IPv4, one IPv6) capped at 2 give
an output of length exactly min 2 3. -/
theorem maxAddrsFilter_exact_witness :
    alen (MaxAddrsFilter ((2 : Nat) : Int) (some ⟨Family.tcp, [wA, wC, wB]⟩)) =
      min 2 (2 + 1) :=
  (maxAddrsFilter_exact ⟨Family.tcp, [wA, wC, wB]⟩ 2 2 1 1 1 (by decide) (by decide)
    (by decide) (by decide) (by decide)).1

/-- C10: for max at most 0 and a non-empty collection, MaxAddrsFilter
returns absent (neither the unchanged collection nor a failure): every
selection quota computed from half = max/2 is nonpositive, so the forward
scan selects no element. -/
theorem maxAddrsFilter_nonpos (max : Int) (hmax : max ≤ 0) (v : AddrsVal)
    (hv : 1 ≤ v.Len) :
    MaxAddrsFilter max (some v) = none := by
  have hnotle : ¬ ((v.Len : Int) ≤ max) := by omega
  have hhalf : max.tdiv 2 ≤ 0 ∧ max ≤ max.tdiv 2 := by
    rcases max with m | m
    · have hm : m = 0 := by
        have hm' := hmax
        rw [Int.ofNat_eq_natCast] at hm'
        omega
      subst hm
      exact ⟨by decide, by decide⟩
    · have ht : (Int.negSucc m).tdiv 2 = -Int.ofNat ((m + 1) / 2) := rfl
      rw [ht, Int.ofNat_eq_natCast, Int.negSucc_eq]
      constructor
      · omega
      · omega
  have h4nn : (0 : Int) ≤ ((v.elems.filter (isV4 v.fam)).length : Int) :=
    Int.natCast_nonneg _
  have h6nn : (0 : Int) ≤ ((v.elems.filter (isV6 v.fam)).length : Int) :=
    Int.natCast_nonneg _
  rw [MaxAddrsFilter_eq max v hnotle, takeQuota_nil_of_nonpos]
  · rfl
  · split_ifs with hA hB
    · omega
    · omega
    · omega
  · split_ifs with hA hB
    · omega
    · omega
    · omega

/-- Witness for C10 at max = -3 and a concrete one-element collection. -/
theorem maxAddrsFilter_nonpos_witness :
    MaxAddrsFilter (-3) (some ⟨Family.udp, [wA]⟩) = none :=
  maxAddrsFilter_nonpos (-3) (by decide) ⟨Family.udp, [wA]⟩ (by decide)

end Nett
